import Mathlib

/-!
# ResourceSubject: a condition-variable guarded observer resource

Verification development for `Model_A.cpp`.

The class `ResourceSubject` owns an `int value`, an
`std::unordered_set<std::shared_ptr<Observer>>`, a mutex, a condition variable
and an atomic `running` flag.  Every member function body is a critical
section under `mtx`, so each critical section is one atomic transition of the
state below.  `setValue` and `stop` consist of two critical sections (the
write, then `notify()`), which are modelled both separately (events `assign`,
`halt`, `notify`) and back to back (`setValue`, `stop`).

The condition variable is modelled by the list of executions of the lambda of
`asyncGetValue` that are in flight, each at its own control point.
`cv.wait(lock, pred)` is `while (!pred()) wait(lock);`: the predicate is
evaluated with the mutex held, a false predicate parks the caller, and a parked
caller runs again only after `notify_all` or a spurious wake-up.

`int` values are never combined arithmetically by this program (they are only
stored, compared with `0` and returned), so `value` is an `Int`.
-/

namespace ResourceModel

/-- Identity of a `std::shared_ptr<Observer>`: the address it holds (hashing and
equality of `shared_ptr` compare the stored pointer). -/
abbrev Handle := Nat

/-- Control point of one execution of the lambda of `asyncGetValue`
(lines 65-71). -/
inductive WaitPc where
  /-- launched, has not yet taken the mutex (line 66) -/
  | entry
  /-- inside `cv.wait`, mutex released, blocked on the condition variable -/
  | parked
  /-- woken inside `cv.wait`, has to take the mutex again and re-evaluate the predicate -/
  | notified
  /-- the lambda has executed `return value;` (line 70): the future is ready -/
  | returned (v : Int)
  deriving DecidableEq, Repr

/-- Data members of `ResourceSubject` (lines 21-25).  `cv` lists the executions
of the `asyncGetValue` lambda, in launch order. -/
structure ResourceSubject where
  value : Int
  observers : Finset Handle
  running : Bool
  cv : List WaitPc
  deriving DecidableEq

/-- Default member initialisers: `value = 0`, empty set, `running {true}`. -/
def ResourceSubject.init : ResourceSubject :=
  { value := 0, observers := ∅, running := true, cv := [] }

/-- Lines 28-31: `observers.insert(observer)`. -/
def attach (s : ResourceSubject) (observer : Handle) : ResourceSubject :=
  { s with observers := insert observer s.observers }

/-- Lines 33-36: `observers.erase(observer)`. -/
def detach (s : ResourceSubject) (observer : Handle) : ResourceSubject :=
  { s with observers := s.observers.erase observer }

/-- Effect of `notify_all` on one waiter: a parked one becomes runnable. -/
def wake : WaitPc → WaitPc
  | .parked => .notified
  | pc => pc

/-- Lines 38-41: `cv.notify_all()`. -/
def notify (s : ResourceSubject) : ResourceSubject :=
  { s with cv := s.cv.map wake }

/-- Lines 43-46: `return value;`. -/
def getValue (s : ResourceSubject) : Int :=
  s.value

/-- Lines 49-52, the first critical section of `setValue`: `value = newValue`. -/
def assign (s : ResourceSubject) (newValue : Int) : ResourceSubject :=
  { s with value := newValue }

/-- Lines 48-54: the assignment, then `notify()`. -/
def setValue (s : ResourceSubject) (newValue : Int) : ResourceSubject :=
  notify (assign s newValue)

/-- Lines 57-60, the first critical section of `stop`: `running = false`. -/
def halt (s : ResourceSubject) : ResourceSubject :=
  { s with running := false }

/-- Lines 56-62: clear `running`, then `notify()`. -/
def stop (s : ResourceSubject) : ResourceSubject :=
  notify (halt s)

/-- Line 68, the predicate handed to `cv.wait`: `!running || this->value != 0`. -/
def wakePred (s : ResourceSubject) : Bool :=
  !s.running || s.value != 0

/-- One evaluation of `cv.wait(lock, pred)` with the mutex held, followed by
`return value;` when the predicate holds and by parking when it does not. -/
def waitCheck (s : ResourceSubject) : WaitPc :=
  if wakePred s then .returned s.value else .parked

/-- One scheduling of an execution of the lambda (lines 66-70).  A parked
execution cannot run; a finished one stays finished. -/
def lambdaStep (s : ResourceSubject) : WaitPc → WaitPc
  | .entry => waitCheck s
  | .notified => waitCheck s
  | .parked => .parked
  | .returned v => .returned v

/-- Lines 64-72: `std::async` launches one more execution of the lambda. -/
def asyncGetValue (s : ResourceSubject) : ResourceSubject :=
  { s with cv := s.cv ++ [.entry] }

/-- What `future.get()` yields for the lambda at control point `pc`:
the returned integer once the lambda has returned, nothing while it has not. -/
def futureGet : WaitPc → Option Int
  | .returned v => some v
  | _ => none

/-- A fresh call that is scheduled at once in state `s`: launch, take the
mutex, evaluate the predicate.  `none` means the call is blocked. -/
def waitNow (s : ResourceSubject) : Option Int :=
  futureGet (lambdaStep s .entry)

/-- Apply `f` to the element at position `i`, if there is one. -/
def stepAt (f : WaitPc → WaitPc) : Nat → List WaitPc → List WaitPc
  | _, [] => []
  | 0, w :: ws => f w :: ws
  | i + 1, w :: ws => w :: stepAt f i ws

/-- Atomic transitions of a `ResourceSubject` shared by several threads. -/
inductive Event where
  | attach (o : Handle)
  | detach (o : Handle)
  | getValue
  | assign (v : Int)
  | halt
  | notify
  | setValue (v : Int)
  | stop
  | asyncGetValue
  /-- the execution number `i` of the lambda is scheduled -/
  | resume (i : Nat)
  /-- the execution number `i` wakes up spuriously inside `cv.wait` -/
  | spurious (i : Nat)
  deriving DecidableEq, Repr

/-- Transition function. -/
def step (s : ResourceSubject) : Event → ResourceSubject
  | .attach o => attach s o
  | .detach o => detach s o
  | .getValue => s
  | .assign v => assign s v
  | .halt => halt s
  | .notify => notify s
  | .setValue v => setValue s v
  | .stop => stop s
  | .asyncGetValue => asyncGetValue s
  | .resume i => { s with cv := stepAt (lambdaStep s) i s.cv }
  | .spurious i => { s with cv := stepAt wake i s.cv }

/-- Run a schedule, leftmost event first. -/
def run (s : ResourceSubject) : List Event → ResourceSubject
  | [] => s
  | e :: es => run (step s e) es

/-- Events that write neither `value` nor `running` and do not launch a call:
registry operations, point reads, waiter scheduling and spurious wake-ups. -/
def Event.quiet : Event → Bool
  | .attach _ => true
  | .detach _ => true
  | .getValue => true
  | .resume _ => true
  | .spurious _ => true
  | _ => false

/-- Events that store `0` into `value`. -/
def Event.writesZero : Event → Bool
  | .setValue v => v == 0
  | .assign v => v == 0
  | _ => false

/-- A schedule around one call of `setValue` or `stop`: events `pre`, then the
write `w` (the first critical section of the call), events `mid`, the call of
`notify()` that ends it, and events `post`. -/
def interleaving (pre : List Event) (w : Event) (mid post : List Event) : List Event :=
  pre ++ w :: mid ++ .notify :: post

/-- Every one of the first `N` executions of the lambda is scheduled once. -/
def resumeAll (N : Nat) : List Event :=
  (List.range N).map .resume

/-- Control point of an observer thread of `main` (lines 98-104 and 106-112). -/
inductive LoopPc where
  /-- the test of `while (true)` -/
  | head
  /-- inside `future.get()`, the lambda being at the given control point -/
  | get (w : WaitPc)
  /-- `observer->update(updatedValue)` -/
  | update (v : Int)
  /-- the thread function has returned; `join()` on the thread completes -/
  | exited
  deriving DecidableEq, Repr

/-- One transition of an observer thread.  `s` is the resource as the thread
finds it and `woken` tells whether a wake-up reached the thread since its last
transition. -/
def loopStep (s : ResourceSubject) (woken : Bool) : LoopPc → LoopPc
  | .head => if true then .get .entry else .exited
  | .get (.returned v) => .update v
  | .get w => .get (lambdaStep s (if woken then wake w else w))
  | .update _ => .head
  | .exited => .exited

/-- The thread after `n` transitions; `env k` is what it meets at transition `k`. -/
def loopRun (env : Nat → ResourceSubject × Bool) : Nat → LoopPc
  | 0 => .head
  | n + 1 => loopStep (env n).1 (env n).2 (loopRun env n)

/-- The call `join()` on an observer thread returns exactly when the thread
function has returned. -/
def joinable (pc : LoopPc) : Bool :=
  pc == .exited

/-! ## Basic facts about the transition function -/

theorem stepAt_length (f : WaitPc → WaitPc) (i : Nat) (l : List WaitPc) :
    (stepAt f i l).length = l.length := by
  induction l generalizing i with
  | nil => cases i <;> rfl
  | cons w ws ih =>
    cases i with
    | zero => rfl
    | succ k => simp [stepAt, ih]

theorem stepAt_getElem? (f : WaitPc → WaitPc) (i j : Nat) (l : List WaitPc) :
    (stepAt f i l)[j]? = if j = i then (l[j]?).map f else l[j]? := by
  induction l generalizing i j with
  | nil => cases i <;> simp [stepAt]
  | cons w ws ih =>
    cases i with
    | zero =>
      cases j with
      | zero => simp [stepAt]
      | succ m => simp [stepAt]
    | succ k =>
      cases j with
      | zero => simp [stepAt]
      | succ m => simp [stepAt, ih]

theorem stepAt_forall (P : WaitPc → Prop) (f : WaitPc → WaitPc)
    (hf : ∀ w, P w → P (f w)) (i : Nat) (l : List WaitPc) (hl : ∀ w ∈ l, P w) :
    ∀ w ∈ stepAt f i l, P w := by
  induction l generalizing i with
  | nil => cases i <;> simp [stepAt]
  | cons a as ih =>
    have ha : P a := hl a (List.mem_cons_self a as)
    have has : ∀ w ∈ as, P w := fun w hw => hl w (List.mem_cons_of_mem a hw)
    cases i with
    | zero =>
      intro w hw
      simp only [stepAt, List.mem_cons] at hw
      rcases hw with rfl | hw
      · exact hf a ha
      · exact has w hw
    | succ k =>
      intro w hw
      simp only [stepAt, List.mem_cons] at hw
      rcases hw with rfl | hw
      · exact ha
      · exact ih k has w hw

theorem wakePred_iff (s : ResourceSubject) :
    wakePred s = true ↔ s.running = false ∨ s.value ≠ 0 := by
  simp [wakePred]

theorem wakePred_false_iff (s : ResourceSubject) :
    wakePred s = false ↔ s.running = true ∧ s.value = 0 := by
  simp [wakePred]

theorem waitCheck_of_wakePred (s : ResourceSubject) (h : wakePred s = true) :
    waitCheck s = .returned s.value := by
  simp [waitCheck, h]

theorem waitCheck_of_not_wakePred (s : ResourceSubject) (h : wakePred s = false) :
    waitCheck s = .parked := by
  simp [waitCheck, h]

theorem lambdaStep_returned (s : ResourceSubject) (pc : WaitPc) (v : Int)
    (hpc : futureGet pc = none) (h : lambdaStep s pc = .returned v) :
    wakePred s = true ∧ v = s.value := by
  cases hp : wakePred s with
  | true =>
    cases pc with
    | entry => simp [lambdaStep, waitCheck, hp] at h; exact ⟨rfl, h.symm⟩
    | notified => simp [lambdaStep, waitCheck, hp] at h; exact ⟨rfl, h.symm⟩
    | parked => simp [lambdaStep] at h
    | returned w => simp [futureGet] at hpc
  | false =>
    cases pc with
    | entry => simp [lambdaStep, waitCheck, hp] at h
    | notified => simp [lambdaStep, waitCheck, hp] at h
    | parked => simp [lambdaStep] at h
    | returned w => simp [futureGet] at hpc

theorem wake_returned (pc : WaitPc) (v : Int) (h : wake pc = .returned v) :
    pc = .returned v := by
  cases pc <;> simp_all [wake]

theorem step_running_false (s : ResourceSubject) (e : Event) (h : s.running = false) :
    (step s e).running = false := by
  cases e <;> simp [step, attach, detach, assign, halt, notify, setValue, stop, asyncGetValue, h]

theorem run_running_false (s : ResourceSubject) (es : List Event) (h : s.running = false) :
    (run s es).running = false := by
  induction es generalizing s with
  | nil => exact h
  | cons e es ih => exact ih (step s e) (step_running_false s e h)

theorem run_append (s : ResourceSubject) (es fs : List Event) :
    run s (es ++ fs) = run (run s es) fs := by
  induction es generalizing s with
  | nil => rfl
  | cons e es ih => exact ih (step s e)

theorem post_stop_wakePred (s : ResourceSubject) (es : List Event) :
    wakePred (run (stop s) es) = true :=
  (wakePred_iff _).2
    (Or.inl (run_running_false (stop s) es (by simp [stop, notify, halt])))

/-! ## Claims about single calls and sequences of calls -/

/-- C1: an execution of the lambda of asyncGetValue that has not yet returned
reaches its return statement only by a predicate evaluation in a state where
the wake predicate holds, and then returns the value of that state; whenever
the predicate holds the evaluation does return; in a state with running true
and value 0 no execution returns, whichever event is taken. -/
theorem asyncGetValue_returns_iff_wakePred (s : ResourceSubject) :
    (∀ pc v, futureGet pc = none → futureGet (lambdaStep s pc) = some v →
        wakePred s = true ∧ v = s.value) ∧
    (∀ (e : Event) (i : Nat) (pc : WaitPc) (v : Int), s.cv[i]? = some pc →
        futureGet pc = none → (step s e).cv[i]? = some (.returned v) →
        wakePred s = true ∧ v = s.value ∧ e = .resume i) ∧
    (wakePred s = true →
        waitNow s = some s.value ∧ lambdaStep s .notified = .returned s.value) ∧
    (s.running = true → s.value = 0 →
        waitNow s = none ∧
        (∀ pc, futureGet pc = none → futureGet (lambdaStep s pc) = none) ∧
        lambdaStep s .entry = .parked ∧ lambdaStep s .notified = .parked) := by
  refine ⟨?_, ?_, ?_, ?_⟩
  · intro pc v hpc h
    apply lambdaStep_returned s pc v hpc
    cases hl : lambdaStep s pc <;> simp_all [futureGet]
  · intro e i pc v hi hpc h
    have hne : pc ≠ .returned v := by
      intro hc
      simp [hc, futureGet] at hpc
    cases e with
    | attach o => simp [step, attach, hi] at h; exact absurd h hne
    | detach o => simp [step, detach, hi] at h; exact absurd h hne
    | getValue => simp [step, hi] at h; exact absurd h hne
    | assign w => simp [step, assign, hi] at h; exact absurd h hne
    | halt => simp [step, halt, hi] at h; exact absurd h hne
    | notify =>
      simp [step, notify, hi] at h
      exact absurd (wake_returned pc v h) hne
    | setValue w =>
      simp [step, setValue, notify, assign, hi] at h
      exact absurd (wake_returned pc v h) hne
    | stop =>
      simp [step, stop, notify, halt, hi] at h
      exact absurd (wake_returned pc v h) hne
    | asyncGetValue =>
      have hlt : i < s.cv.length := by
        by_contra hc
        have : s.cv[i]? = none := List.getElem?_eq_none (Nat.le_of_not_lt hc)
        simp [this] at hi
      simp [step, asyncGetValue, List.getElem?_append_left hlt, hi] at h
      exact absurd h hne
    | resume j =>
      simp only [step, stepAt_getElem?] at h
      by_cases hij : i = j
      · subst hij
        simp [hi] at h
        have := lambdaStep_returned s pc v hpc h
        exact ⟨this.1, this.2, rfl⟩
      · simp [hij, hi] at h
        exact absurd h hne
    | spurious j =>
      simp only [step, stepAt_getElem?] at h
      by_cases hij : i = j
      · subst hij
        simp [hi] at h
        exact absurd (wake_returned pc v h) hne
      · simp [hij, hi] at h
        exact absurd h hne
  · intro h
    simp [waitNow, lambdaStep, waitCheck, h, futureGet]
  · intro hr hv
    have hp : wakePred s = false := (wakePred_false_iff s).2 ⟨hr, hv⟩
    refine ⟨?_, ?_, ?_, ?_⟩
    · simp [waitNow, lambdaStep, waitCheck, hp, futureGet]
    · intro pc hpc
      cases pc <;> simp_all [lambdaStep, waitCheck, futureGet]
    · simp [lambdaStep, waitCheck, hp]
    · simp [lambdaStep, waitCheck, hp]

/-- C2: post-stop immediacy.  After stop has returned, whatever events follow
(attach, detach, setValue with any integer, getValue, stop, further waits, in
any number and order), the wake predicate holds, a fresh call of the wait
operation returns at its first predicate evaluation, and it returns the
current value of the resource. -/
theorem post_stop_immediacy (s : ResourceSubject) (es : List Event) :
    wakePred (run (stop s) es) = true ∧
    waitNow (run (stop s) es) = some (getValue (run (stop s) es)) ∧
    (run (run (stop s) es) [.asyncGetValue, .resume (run (stop s) es).cv.length]).cv[
        (run (stop s) es).cv.length]? = some (.returned (run (stop s) es).value) := by
  have hr : (run (stop s) es).running = false :=
    run_running_false (stop s) es (by simp [stop, notify, halt])
  have hp : wakePred (run (stop s) es) = true := (wakePred_iff _).2 (Or.inl hr)
  refine ⟨hp, ?_, ?_⟩
  · simp [waitNow, lambdaStep, waitCheck, hp, futureGet, getValue]
  · have hp2 : wakePred (asyncGetValue (run (stop s) es)) = true := by
      simpa [wakePred, asyncGetValue] using hp
    simp [run, step, stepAt_getElem?, lambdaStep, waitCheck, hp2]
    simp [asyncGetValue]

/-- C3: lifecycle.  A new resource is running; stop clears the flag; no event
of any kind turns a cleared flag back on, neither in one step nor over a
schedule; every event other than stop (and its first critical section) leaves
the flag as it was. -/
theorem running_lifecycle :
    ResourceSubject.init.running = true ∧
    (∀ s : ResourceSubject, (stop s).running = false) ∧
    (∀ (s : ResourceSubject) (e : Event), s.running = false →
        (step s e).running = false) ∧
    (∀ (s : ResourceSubject) (es : List Event), s.running = false →
        (run s es).running = false) ∧
    (∀ (s : ResourceSubject) (e : Event), e ≠ .stop → e ≠ .halt →
        (step s e).running = s.running) := by
  refine ⟨rfl, ?_, step_running_false, run_running_false, ?_⟩
  · intro s
    simp [stop, notify, halt]
  · intro s e h1 h2
    cases e <;>
      simp_all [step, attach, detach, assign, notify, setValue, asyncGetValue]

/-- C4: attaching a handle twice gives the same resource state as attaching it
once, the registry of a new resource has size 1 after a double attach,
attaching a handle already present changes nothing, and detaching an absent
handle changes nothing (detach is a total function: there is no error result). -/
theorem attach_detach_idempotent (s : ResourceSubject) (o : Handle) :
    attach (attach s o) o = attach s o ∧
    (attach (attach ResourceSubject.init o) o).observers.card = 1 ∧
    (o ∈ s.observers → attach s o = s) ∧
    (o ∉ s.observers → detach s o = s) := by
  refine ⟨?_, ?_, ?_, ?_⟩
  · simp [attach]
  · simp [attach, ResourceSubject.init]
  · intro h
    simp [attach, Finset.insert_eq_of_mem h]
  · intro h
    simp [detach, Finset.erase_eq_of_not_mem h]

/-- C5: after setValue with argument v the value is v and getValue returns v,
while the registry and the running flag are as before; getValue changes no
part of the state.  The state is arbitrary, running or stopped. -/
theorem setValue_getValue_frame (s : ResourceSubject) (v : Int) :
    (setValue s v).value = v ∧
    getValue (setValue s v) = v ∧
    (setValue s v).observers = s.observers ∧
    (setValue s v).running = s.running ∧
    step s .getValue = s ∧
    (step s (.setValue v)).value = v := by
  simp [setValue, notify, assign, getValue, step]

theorem step_value_ne_zero (s : ResourceSubject) (e : Event) (h : s.value ≠ 0)
    (he : e.writesZero = false) : (step s e).value ≠ 0 := by
  cases e <;>
    simp_all [step, attach, detach, assign, halt, notify, setValue, stop, asyncGetValue,
      Event.writesZero]

theorem run_value_ne_zero (s : ResourceSubject) (es : List Event) (h : s.value ≠ 0)
    (hes : ∀ e ∈ es, e.writesZero = false) : (run s es).value ≠ 0 := by
  induction es generalizing s with
  | nil => exact h
  | cons e es ih =>
    exact ih (step s e)
      (step_value_ne_zero s e h (hes e (List.mem_cons_self e es)))
      (fun x hx => hes x (List.mem_cons_of_mem e hx))

/-- C8, as stated, fails: on a new resource setValue(10) makes the value
non-zero, and a later setValue(0) on the still running resource makes the wake
predicate false again, so that a fresh wait blocks. -/
theorem wakePred_rearms_after_setValue_zero :
    (setValue ResourceSubject.init 10).value ≠ 0 ∧
    wakePred (setValue ResourceSubject.init 10) = true ∧
    wakePred (run (setValue ResourceSubject.init 10) [.setValue 0]) = false ∧
    waitNow (run (setValue ResourceSubject.init 10) [.setValue 0]) = none ∧
    ¬ (∀ (s : ResourceSubject) (es : List Event), s.value ≠ 0 →
        wakePred (run s es) = true) := by
  refine ⟨by decide, by decide, by decide, by decide, ?_⟩
  intro h
  have := h (setValue ResourceSubject.init 10) [.setValue 0] (by decide)
  revert this
  decide

/-- C8, amended: once the value is non-zero, the wake predicate holds in every
state reached by a schedule of events none of which stores 0 into the value,
and a fresh wait then returns the current value without blocking. -/
theorem wakePred_permanent_without_zero_write (s : ResourceSubject) (es : List Event)
    (h : s.value ≠ 0) (hes : ∀ e ∈ es, e.writesZero = false) :
    wakePred (run s es) = true ∧ waitNow (run s es) = some (run s es).value := by
  have hv := run_value_ne_zero s es h hes
  have hp : wakePred (run s es) = true := (wakePred_iff _).2 (Or.inr hv)
  exact ⟨hp, by simp [waitNow, lambdaStep, waitCheck, hp, futureGet]⟩

/-- Instance of the amended C8 on a schedule that writes 20, stops and never writes 0. -/
theorem wakePred_permanent_without_zero_write_witness :
    wakePred (run (setValue ResourceSubject.init 10)
        [.attach 1, .setValue 20, .asyncGetValue, .resume 0, .stop, .detach 1]) = true ∧
    waitNow (run (setValue ResourceSubject.init 10)
        [.attach 1, .setValue 20, .asyncGetValue, .resume 0, .stop, .detach 1]) =
      some (run (setValue ResourceSubject.init 10)
        [.attach 1, .setValue 20, .asyncGetValue, .resume 0, .stop, .detach 1]).value :=
  wakePred_permanent_without_zero_write (setValue ResourceSubject.init 10)
    [.attach 1, .setValue 20, .asyncGetValue, .resume 0, .stop, .detach 1]
    (by decide) (by decide)

/-- C9: last write wins.  After setValue(a) followed by setValue(b), with b
non-zero or the resource stopped, the wake predicate holds, a fresh wait
returns b, every execution of the lambda that returns in that state returns b,
and an execution that was pending before the two writes and is scheduled after
them returns b. -/
theorem last_write_wins (s : ResourceSubject) (a b : Int)
    (h : b ≠ 0 ∨ s.running = false) :
    wakePred (setValue (setValue s a) b) = true ∧
    waitNow (setValue (setValue s a) b) = some b ∧
    (∀ pc v, futureGet pc = none →
        futureGet (lambdaStep (setValue (setValue s a) b) pc) = some v → v = b) ∧
    (∀ i pc, s.cv[i]? = some pc → futureGet pc = none →
        (run s [.setValue a, .setValue b, .resume i]).cv[i]? = some (.returned b)) := by
  have hp : wakePred (setValue (setValue s a) b) = true := by
    apply (wakePred_iff _).2
    rcases h with h | h
    · exact Or.inr (by simpa [setValue, notify, assign] using h)
    · exact Or.inl (by simpa [setValue, notify, assign] using h)
  have hval : (setValue (setValue s a) b).value = b := by
    simp [setValue, notify, assign]
  refine ⟨hp, ?_, ?_, ?_⟩
  · simp [waitNow, lambdaStep, waitCheck, hp, futureGet, hval]
  · intro pc v hpc hv
    have hret : lambdaStep (setValue (setValue s a) b) pc = .returned v := by
      cases hl : lambdaStep (setValue (setValue s a) b) pc <;> simp_all [futureGet]
    have := lambdaStep_returned _ pc v hpc hret
    rw [this.2, hval]
  · intro i pc hi hpc
    have hcv : (setValue (setValue s a) b).cv[i]? = some (wake (wake pc)) := by
      simp [setValue, notify, assign, hi]
    simp only [run, step, stepAt_getElem?, if_true, hcv, Option.map_some']
    cases pc <;> simp_all [wake, lambdaStep, waitCheck, futureGet]

/-- Instance of C9: setValue(10) then setValue(20) on a new resource. -/
theorem last_write_wins_witness :
    wakePred (setValue (setValue ResourceSubject.init 10) 20) = true ∧
    waitNow (setValue (setValue ResourceSubject.init 10) 20) = some 20 ∧
    (∀ pc v, futureGet pc = none →
        futureGet (lambdaStep (setValue (setValue ResourceSubject.init 10) 20) pc) = some v →
        v = 20) ∧
    (∀ i pc, ResourceSubject.init.cv[i]? = some pc → futureGet pc = none →
        (run ResourceSubject.init [.setValue 10, .setValue 20, .resume i]).cv[i]? =
          some (.returned 20)) :=
  last_write_wins ResourceSubject.init 10 20 (Or.inl (by decide))

/-! ## The observer threads of `main` -/

theorem loopStep_ne_exited (s : ResourceSubject) (woken : Bool) (pc : LoopPc)
    (h : pc ≠ .exited) : loopStep s woken pc ≠ .exited := by
  cases pc with
  | head => simp [loopStep]
  | get w => cases w <;> simp [loopStep]
  | update v => simp [loopStep]
  | exited => exact absurd rfl h

/-- C10: an observer thread of main never leaves its loop.  From every control
point other than the exit, and in every resource state, the next transition
is again not the exit; hence along every run, whatever the resource does, the
thread never reaches the exit and join() on it never completes.  In a state
that satisfies the wake predicate (every state after stop) the loop goes
round in four transitions, calling update with the current value, and is
back at its head. -/
theorem observer_loop_never_exits :
    (∀ (s : ResourceSubject) (woken : Bool) (pc : LoopPc), pc ≠ .exited →
        loopStep s woken pc ≠ .exited) ∧
    (∀ (env : Nat → ResourceSubject × Bool) (n : Nat),
        loopRun env n ≠ .exited ∧ joinable (loopRun env n) = false) ∧
    (∀ (s : ResourceSubject) (es : List Event) (woken : Bool),
        loopStep (run (stop s) es) woken (loopStep (run (stop s) es) woken
          (loopStep (run (stop s) es) woken .head)) =
            .update (run (stop s) es).value ∧
        loopStep (run (stop s) es) woken (.update (run (stop s) es).value) = .head) := by
  have hrun : ∀ (env : Nat → ResourceSubject × Bool) (n : Nat),
      loopRun env n ≠ .exited := by
    intro env n
    induction n with
    | zero => simp [loopRun]
    | succ k ih => exact loopStep_ne_exited _ _ _ ih
  refine ⟨loopStep_ne_exited, ?_, ?_⟩
  · intro env n
    refine ⟨hrun env n, ?_⟩
    have := hrun env n
    simp [joinable, this]
  · intro s es woken
    have hp := (post_stop_wakePred s es)
    cases woken <;> simp [loopStep, lambdaStep, wake, waitCheck, hp]

/-! ## Waiters blocked on the condition variable -/

theorem quiet_step_value (s : ResourceSubject) (e : Event) (he : e.quiet = true) :
    (step s e).value = s.value ∧ (step s e).running = s.running := by
  cases e <;> simp_all [step, attach, detach, Event.quiet]

theorem quiet_step_length (s : ResourceSubject) (e : Event) (he : e.quiet = true) :
    (step s e).cv.length = s.cv.length := by
  cases e <;> simp_all [step, attach, detach, Event.quiet, stepAt_length]

theorem quiet_step_cv (P : WaitPc → Prop) (s : ResourceSubject) (e : Event)
    (he : e.quiet = true) (hl : ∀ w, P w → P (lambdaStep s w))
    (hw : ∀ w, P w → P (wake w)) (h : ∀ w ∈ s.cv, P w) :
    ∀ w ∈ (step s e).cv, P w := by
  cases e with
  | attach o => simpa [step, attach] using h
  | detach o => simpa [step, detach] using h
  | getValue => simpa [step] using h
  | resume i => exact stepAt_forall P (lambdaStep s) hl i s.cv h
  | spurious i => exact stepAt_forall P wake hw i s.cv h
  | assign v => simp [Event.quiet] at he
  | halt => simp [Event.quiet] at he
  | notify => simp [Event.quiet] at he
  | setValue v => simp [Event.quiet] at he
  | stop => simp [Event.quiet] at he
  | asyncGetValue => simp [Event.quiet] at he

theorem quiet_run_inv (P : WaitPc → Prop) (v : Int) (r : Bool)
    (hl : ∀ s : ResourceSubject, s.value = v → s.running = r →
      ∀ w, P w → P (lambdaStep s w))
    (hw : ∀ w, P w → P (wake w)) (es : List Event) (s : ResourceSubject)
    (hes : ∀ e ∈ es, e.quiet = true) (hv : s.value = v) (hr : s.running = r)
    (h : ∀ w ∈ s.cv, P w) :
    (run s es).value = v ∧ (run s es).running = r ∧
    (run s es).cv.length = s.cv.length ∧ ∀ w ∈ (run s es).cv, P w := by
  induction es generalizing s with
  | nil => exact ⟨hv, hr, rfl, h⟩
  | cons e es ih =>
    have he : e.quiet = true := hes e (List.mem_cons_self e es)
    have hq := quiet_step_value s e he
    have hlen := quiet_step_length s e he
    have hcv := quiet_step_cv P s e he (hl s hv hr) hw h
    have := ih (step s e) (fun x hx => hes x (List.mem_cons_of_mem e hx))
      (hq.1.trans hv) (hq.2.trans hr) hcv
    exact ⟨this.1, this.2.1, this.2.2.1.trans hlen, this.2.2.2⟩

/-- While the predicate is false, blocked waiters stay blocked: a spurious
wake-up is followed by a new evaluation of the predicate, which parks again. -/
theorem before_write (s : ResourceSubject) (pre : List Event)
    (hpre : ∀ e ∈ pre, e.quiet = true) (hr : s.running = true) (hv : s.value = 0)
    (h : ∀ w ∈ s.cv, w = .parked) :
    (run s pre).value = 0 ∧ (run s pre).running = true ∧
    (run s pre).cv.length = s.cv.length ∧
    ∀ w ∈ (run s pre).cv, w = .parked ∨ w = .notified := by
  apply quiet_run_inv (fun w => w = .parked ∨ w = .notified) 0 true _ _ pre s hpre hv hr
  · intro w hw
    exact Or.inl (h w hw)
  · intro t htv htr w hw
    have hp : wakePred t = false := (wakePred_false_iff t).2 ⟨htr, htv⟩
    rcases hw with rfl | rfl <;> simp [lambdaStep, waitCheck, hp]
  · intro w hw
    rcases hw with rfl | rfl <;> simp [wake]

theorem resumed_stays (v : Int) (post : List Event) (s : ResourceSubject) (i : Nat)
    (hpost : ∀ e ∈ post, e.quiet = true)
    (hi : s.cv[i]? = some (.returned v)) :
    (run s post).cv[i]? = some (.returned v) := by
  induction post generalizing s with
  | nil => exact hi
  | cons e es ih =>
    apply ih (step s e) (fun x hx => hpost x (List.mem_cons_of_mem e hx))
    have he : e.quiet = true := hpost e (List.mem_cons_self e es)
    cases e with
    | attach o => simpa [step, attach] using hi
    | detach o => simpa [step, detach] using hi
    | getValue => simpa [step] using hi
    | resume j =>
      simp only [step, stepAt_getElem?]
      by_cases hij : i = j
      · subst hij
        simp [hi, lambdaStep]
      · simp [hij, hi]
    | spurious j =>
      simp only [step, stepAt_getElem?]
      by_cases hij : i = j
      · subst hij
        simp [hi, wake]
      · simp [hij, hi]
    | assign w => simp [Event.quiet] at he
    | halt => simp [Event.quiet] at he
    | notify => simp [Event.quiet] at he
    | setValue w => simp [Event.quiet] at he
    | stop => simp [Event.quiet] at he
    | asyncGetValue => simp [Event.quiet] at he

theorem resumed_returns (v : Int) (r : Bool) (hp : ∀ s : ResourceSubject,
      s.value = v → s.running = r → wakePred s = true)
    (post : List Event) (s : ResourceSubject) (i : Nat)
    (hpost : ∀ e ∈ post, e.quiet = true) (hv : s.value = v) (hr : s.running = r)
    (h : ∀ w ∈ s.cv, w = .notified ∨ w = .returned v)
    (hi : i < s.cv.length) (hmem : Event.resume i ∈ post) :
    (run s post).cv[i]? = some (.returned v) := by
  induction post generalizing s with
  | nil => simp at hmem
  | cons e es ih =>
    have he : e.quiet = true := hpost e (List.mem_cons_self e es)
    have hes : ∀ x ∈ es, x.quiet = true := fun x hx => hpost x (List.mem_cons_of_mem e hx)
    by_cases hhead : e = .resume i
    · subst hhead
      apply resumed_stays v es _ i hes
      have hw := h (s.cv[i]) (List.getElem_mem hi)
      have hps := hp s hv hr
      simp only [step, stepAt_getElem?, if_true, List.getElem?_eq_getElem hi,
        Option.map_some']
      rcases hw with hw | hw <;> simp [hw, lambdaStep, waitCheck, hps, hv]
    · have hmem2 : Event.resume i ∈ es := by
        rcases List.mem_cons.1 hmem with hm | hm
        · exact absurd hm.symm hhead
        · exact hm
      have hq := quiet_step_value s e he
      have hlen := quiet_step_length s e he
      have hcv := quiet_step_cv (fun w => w = .notified ∨ w = .returned v) s e he
        (by
          intro w hw
          have hps := hp s hv hr
          rcases hw with rfl | rfl <;> simp [lambdaStep, waitCheck, hps, hv])
        (by
          intro w hw
          rcases hw with rfl | rfl <;> simp [wake]) h
      exact ih (step s e) hes (hq.1.trans hv) (hq.2.trans hr) hcv (hlen ▸ hi) hmem2

theorem wakePred_congr (s t : ResourceSubject) (hv : s.value = t.value)
    (hr : s.running = t.running) : wakePred s = wakePred t := by
  simp [wakePred, hv, hr]

theorem list_eq_replicate (l : List WaitPc) (N : Nat) (x : WaitPc)
    (hlen : l.length = N) (h : ∀ i, i < N → l[i]? = some x) :
    l = List.replicate N x := by
  apply List.ext_getElem?
  intro i
  by_cases hi : i < N
  · simp [h i hi, List.getElem?_replicate, hi]
  · have h1 : l[i]? = none := List.getElem?_eq_none (by omega)
    simp [h1, List.getElem?_replicate, hi]

theorem run_interleaving (s : ResourceSubject) (pre : List Event) (w : Event)
    (mid post : List Event) :
    run s (interleaving pre w mid post) =
      run (notify (run (step (run s pre) w) mid)) post := by
  simp [interleaving, run_append, run, step]

/-- Once the write has made the predicate true: arbitrary waiter activity, then
`notify()`, then arbitrary waiter activity leaves every waiter either runnable
or returned with the written value, and every waiter scheduled after the
notification has returned that value. -/
theorem woken_after_write (t : ResourceSubject) (v : Int) (mid post : List Event)
    (hp : wakePred t = true) (hval : t.value = v)
    (hcv : ∀ w ∈ t.cv, w = .parked ∨ w = .notified)
    (hmid : ∀ e ∈ mid, e.quiet = true) (hpost : ∀ e ∈ post, e.quiet = true) :
    (run (notify (run t mid)) post).cv.length = t.cv.length ∧
    (run (notify (run t mid)) post).value = v ∧
    (∀ w ∈ (run (notify (run t mid)) post).cv, w = .notified ∨ w = .returned v) ∧
    (∀ i, i < t.cv.length → Event.resume i ∈ post →
      (run (notify (run t mid)) post).cv[i]? = some (.returned v)) := by
  have hpt : ∀ s : ResourceSubject, s.value = v → s.running = t.running →
      wakePred s = true := by
    intro s hsv hsr
    rw [wakePred_congr s t (hsv.trans hval.symm) hsr]
    exact hp
  have h1 := quiet_run_inv (fun w => w = .parked ∨ w = .notified ∨ w = .returned v)
    v t.running
    (by
      intro s hsv hsr w hw
      have hps := hpt s hsv hsr
      rcases hw with rfl | rfl | rfl <;> simp [lambdaStep, waitCheck, hps, hsv])
    (by
      intro w hw
      rcases hw with rfl | rfl | rfl <;> simp [wake])
    mid t hmid hval rfl
    (by
      intro w hw
      rcases hcv w hw with h | h
      · exact Or.inl h
      · exact Or.inr (Or.inl h))
  have hn : ∀ w ∈ (notify (run t mid)).cv, w = .notified ∨ w = .returned v := by
    intro w hw
    simp only [notify, List.mem_map] at hw
    obtain ⟨a, ha, rfl⟩ := hw
    rcases h1.2.2.2 a ha with rfl | rfl | rfl <;> simp [wake]
  have hnv : (notify (run t mid)).value = v := by simpa [notify] using h1.1
  have hnr : (notify (run t mid)).running = t.running := by simpa [notify] using h1.2.1
  have hnl : (notify (run t mid)).cv.length = t.cv.length := by
    simpa [notify] using h1.2.2.1
  have h2 := quiet_run_inv (fun w => w = .notified ∨ w = .returned v) v t.running
    (by
      intro s hsv hsr w hw
      have hps := hpt s hsv hsr
      rcases hw with rfl | rfl <;> simp [lambdaStep, waitCheck, hps, hsv])
    (by
      intro w hw
      rcases hw with rfl | rfl <;> simp [wake])
    post (notify (run t mid)) hpost hnv hnr hn
  refine ⟨h2.2.2.1.trans hnl, h2.1, h2.2.2.2, ?_⟩
  intro i hi hmem
  exact resumed_returns v t.running hpt post (notify (run t mid)) i hpost hnv hnr hn
    (hnl ▸ hi) hmem

theorem resumeAll_quiet (N : Nat) (post : List Event) (hpost : ∀ e ∈ post, e.quiet = true) :
    ∀ e ∈ post ++ resumeAll N, e.quiet = true := by
  intro e he
  rcases List.mem_append.1 he with h | h
  · exact hpost e h
  · simp only [resumeAll, List.mem_map] at h
    obtain ⟨i, _, rfl⟩ := h
    rfl

theorem resume_mem_resumeAll (N i : Nat) (post : List Event) (hi : i < N) :
    Event.resume i ∈ post ++ resumeAll N := by
  apply List.mem_append_right
  simp only [resumeAll, List.mem_map]
  exact ⟨i, List.mem_range.2 hi, rfl⟩

/-- C6: broadcast wake.  N executions of the wait lambda are blocked on a
running resource with value 0, and one setValue(v) with v non-zero is
performed.  Then notify wakes all N of them at once; and for every schedule
in which waiter activity, spurious wake-ups and registry operations are
interleaved before, inside and after the call, no waiter is left blocked, no
waiter has returned anything but v, every waiter scheduled after the
notification has returned v, and once each has been scheduled all N have
returned v. -/
theorem broadcast_wake_all_return (s : ResourceSubject) (N : Nat) (v : Int)
    (pre mid post : List Event)
    (hr : s.running = true) (h0 : s.value = 0)
    (hcv : s.cv = List.replicate N .parked) (hv : v ≠ 0)
    (hpre : ∀ e ∈ pre, e.quiet = true) (hmid : ∀ e ∈ mid, e.quiet = true)
    (hpost : ∀ e ∈ post, e.quiet = true) :
    (setValue s v).cv = List.replicate N .notified ∧
    (run (setValue s v) (resumeAll N)).cv = List.replicate N (.returned v) ∧
    (run s (interleaving pre (.assign v) mid post)).cv.length = N ∧
    (∀ w ∈ (run s (interleaving pre (.assign v) mid post)).cv,
      w = .notified ∨ w = .returned v) ∧
    (∀ i, i < N → Event.resume i ∈ post →
      (run s (interleaving pre (.assign v) mid post)).cv[i]? = some (.returned v)) ∧
    (run s (interleaving pre (.assign v) mid (post ++ resumeAll N))).cv =
      List.replicate N (.returned v) := by
  have hall : ∀ w ∈ s.cv, w = .parked := by
    intro w hw
    rw [hcv] at hw
    exact (List.mem_replicate.1 hw).2
  have hlen : s.cv.length = N := by simp [hcv]
  have key : ∀ (pre mid post : List Event), (∀ e ∈ pre, e.quiet = true) →
      (∀ e ∈ mid, e.quiet = true) → (∀ e ∈ post, e.quiet = true) →
      (run s (interleaving pre (.assign v) mid post)).cv.length = N ∧
      (∀ w ∈ (run s (interleaving pre (.assign v) mid post)).cv,
        w = .notified ∨ w = .returned v) ∧
      (∀ i, i < N → Event.resume i ∈ post →
        (run s (interleaving pre (.assign v) mid post)).cv[i]? =
          some (.returned v)) := by
    intro pre mid post hpre hmid hpost
    have hb := before_write s pre hpre hr h0 hall
    have hw := woken_after_write (step (run s pre) (.assign v)) v mid post
      (by simp [step, assign, wakePred, hv]) (by simp [step, assign])
      (by simpa [step, assign] using hb.2.2.2) hmid hpost
    have hl : (step (run s pre) (.assign v)).cv.length = N := by
      simpa [step, assign, hlen] using hb.2.2.1
    rw [run_interleaving]
    refine ⟨hw.1.trans hl, hw.2.2.1, ?_⟩
    intro i hi hmem
    exact hw.2.2.2 i (hl ▸ hi) hmem
  have hfull : ∀ (pre mid post : List Event), (∀ e ∈ pre, e.quiet = true) →
      (∀ e ∈ mid, e.quiet = true) → (∀ e ∈ post, e.quiet = true) →
      (run s (interleaving pre (.assign v) mid (post ++ resumeAll N))).cv =
        List.replicate N (.returned v) := by
    intro pre mid post hpre hmid hpost
    have hk := key pre mid (post ++ resumeAll N) hpre hmid (resumeAll_quiet N post hpost)
    exact list_eq_replicate _ N _ hk.1
      (fun i hi => hk.2.2 i hi (resume_mem_resumeAll N i post hi))
  have hk := key pre mid post hpre hmid hpost
  refine ⟨?_, ?_, hk.1, hk.2.1, hk.2.2, hfull pre mid post hpre hmid hpost⟩
  · simp [setValue, notify, assign, hcv, wake]
  · have := hfull [] [] [] (by simp) (by simp) (by simp)
    simpa [run_interleaving, run, step, setValue] using this

/-- Instance of C6: two calls blocked on a new resource, then setValue(10). -/
theorem broadcast_wake_all_return_witness :
    (setValue (run ResourceSubject.init
        [.asyncGetValue, .asyncGetValue, .resume 0, .resume 1]) 10).cv =
      List.replicate 2 .notified ∧
    (run (setValue (run ResourceSubject.init
        [.asyncGetValue, .asyncGetValue, .resume 0, .resume 1]) 10) (resumeAll 2)).cv =
      List.replicate 2 (.returned 10) ∧
    (run (run ResourceSubject.init [.asyncGetValue, .asyncGetValue, .resume 0, .resume 1])
      (interleaving [.spurious 0, .resume 0] (.assign 10) [.spurious 1, .attach 7]
        [.resume 1])).cv.length = 2 ∧
    (∀ w ∈ (run (run ResourceSubject.init
        [.asyncGetValue, .asyncGetValue, .resume 0, .resume 1])
      (interleaving [.spurious 0, .resume 0] (.assign 10) [.spurious 1, .attach 7]
        [.resume 1])).cv, w = .notified ∨ w = .returned 10) ∧
    (∀ i, i < 2 → Event.resume i ∈ [Event.resume 1] →
      (run (run ResourceSubject.init [.asyncGetValue, .asyncGetValue, .resume 0, .resume 1])
        (interleaving [.spurious 0, .resume 0] (.assign 10) [.spurious 1, .attach 7]
          [.resume 1])).cv[i]? = some (.returned 10)) ∧
    (run (run ResourceSubject.init [.asyncGetValue, .asyncGetValue, .resume 0, .resume 1])
      (interleaving [.spurious 0, .resume 0] (.assign 10) [.spurious 1, .attach 7]
        ([.resume 1] ++ resumeAll 2))).cv = List.replicate 2 (.returned 10) :=
  broadcast_wake_all_return
    (run ResourceSubject.init [.asyncGetValue, .asyncGetValue, .resume 0, .resume 1])
    2 10 [.spurious 0, .resume 0] [.spurious 1, .attach 7] [.resume 1]
    (by decide) (by decide) (by decide) (by decide) (by decide) (by decide) (by decide)

/-- C7: shutdown wake.  N executions of the wait lambda are blocked on a
running resource with value 0, and stop is called.  Then the wake predicate
holds and the value is still 0, notify wakes all N of them at once; and for
every schedule in which waiter activity, spurious wake-ups and registry
operations are interleaved before, inside and after the call, no waiter is
left blocked, no waiter has returned anything but 0, every waiter scheduled
after the notification has returned 0, and once each has been scheduled all N
have returned 0. -/
theorem shutdown_wake_all_return_zero (s : ResourceSubject) (N : Nat)
    (pre mid post : List Event)
    (hr : s.running = true) (h0 : s.value = 0)
    (hcv : s.cv = List.replicate N .parked)
    (hpre : ∀ e ∈ pre, e.quiet = true) (hmid : ∀ e ∈ mid, e.quiet = true)
    (hpost : ∀ e ∈ post, e.quiet = true) :
    wakePred s = false ∧ wakePred (stop s) = true ∧ (stop s).value = 0 ∧
    (stop s).cv = List.replicate N .notified ∧
    (run (stop s) (resumeAll N)).cv = List.replicate N (.returned 0) ∧
    (run s (interleaving pre .halt mid post)).cv.length = N ∧
    (∀ w ∈ (run s (interleaving pre .halt mid post)).cv,
      w = .notified ∨ w = .returned 0) ∧
    (∀ i, i < N → Event.resume i ∈ post →
      (run s (interleaving pre .halt mid post)).cv[i]? = some (.returned 0)) ∧
    (run s (interleaving pre .halt mid (post ++ resumeAll N))).cv =
      List.replicate N (.returned 0) := by
  have hall : ∀ w ∈ s.cv, w = .parked := by
    intro w hw
    rw [hcv] at hw
    exact (List.mem_replicate.1 hw).2
  have hlen : s.cv.length = N := by simp [hcv]
  have key : ∀ (pre mid post : List Event), (∀ e ∈ pre, e.quiet = true) →
      (∀ e ∈ mid, e.quiet = true) → (∀ e ∈ post, e.quiet = true) →
      (run s (interleaving pre .halt mid post)).cv.length = N ∧
      (∀ w ∈ (run s (interleaving pre .halt mid post)).cv,
        w = .notified ∨ w = .returned 0) ∧
      (∀ i, i < N → Event.resume i ∈ post →
        (run s (interleaving pre .halt mid post)).cv[i]? = some (.returned 0)) := by
    intro pre mid post hpre hmid hpost
    have hb := before_write s pre hpre hr h0 hall
    have hw := woken_after_write (step (run s pre) .halt) 0 mid post
      (by simp [step, halt, wakePred]) (by simpa [step, halt] using hb.1)
      (by simpa [step, halt] using hb.2.2.2) hmid hpost
    have hl : (step (run s pre) .halt).cv.length = N := by
      simpa [step, halt, hlen] using hb.2.2.1
    rw [run_interleaving]
    refine ⟨hw.1.trans hl, hw.2.2.1, ?_⟩
    intro i hi hmem
    exact hw.2.2.2 i (hl ▸ hi) hmem
  have hfull : ∀ (pre mid post : List Event), (∀ e ∈ pre, e.quiet = true) →
      (∀ e ∈ mid, e.quiet = true) → (∀ e ∈ post, e.quiet = true) →
      (run s (interleaving pre .halt mid (post ++ resumeAll N))).cv =
        List.replicate N (.returned 0) := by
    intro pre mid post hpre hmid hpost
    have hk := key pre mid (post ++ resumeAll N) hpre hmid (resumeAll_quiet N post hpost)
    exact list_eq_replicate _ N _ hk.1
      (fun i hi => hk.2.2 i hi (resume_mem_resumeAll N i post hi))
  have hk := key pre mid post hpre hmid hpost
  refine ⟨(wakePred_false_iff s).2 ⟨hr, h0⟩, ?_, ?_, ?_, ?_, hk.1, hk.2.1, hk.2.2,
    hfull pre mid post hpre hmid hpost⟩
  · simp [stop, notify, halt, wakePred]
  · simpa [stop, notify, halt] using h0
  · simp [stop, notify, halt, hcv, wake]
  · have := hfull [] [] [] (by simp) (by simp) (by simp)
    simpa [run_interleaving, run, step, stop] using this

/-- Instance of C7: two calls blocked on a new resource, then stop. -/
theorem shutdown_wake_all_return_zero_witness :
    wakePred (run ResourceSubject.init
      [.asyncGetValue, .asyncGetValue, .resume 0, .resume 1]) = false ∧
    wakePred (stop (run ResourceSubject.init
      [.asyncGetValue, .asyncGetValue, .resume 0, .resume 1])) = true ∧
    (stop (run ResourceSubject.init
      [.asyncGetValue, .asyncGetValue, .resume 0, .resume 1])).value = 0 ∧
    (stop (run ResourceSubject.init
      [.asyncGetValue, .asyncGetValue, .resume 0, .resume 1])).cv =
        List.replicate 2 .notified ∧
    (run (stop (run ResourceSubject.init
      [.asyncGetValue, .asyncGetValue, .resume 0, .resume 1])) (resumeAll 2)).cv =
        List.replicate 2 (.returned 0) ∧
    (run (run ResourceSubject.init [.asyncGetValue, .asyncGetValue, .resume 0, .resume 1])
      (interleaving [.spurious 1] .halt [.spurious 0, .resume 0] [.resume 1])).cv.length
        = 2 ∧
    (∀ w ∈ (run (run ResourceSubject.init
        [.asyncGetValue, .asyncGetValue, .resume 0, .resume 1])
      (interleaving [.spurious 1] .halt [.spurious 0, .resume 0] [.resume 1])).cv,
        w = .notified ∨ w = .returned 0) ∧
    (∀ i, i < 2 → Event.resume i ∈ [Event.resume 1] →
      (run (run ResourceSubject.init [.asyncGetValue, .asyncGetValue, .resume 0, .resume 1])
        (interleaving [.spurious 1] .halt [.spurious 0, .resume 0] [.resume 1])).cv[i]? =
          some (.returned 0)) ∧
    (run (run ResourceSubject.init [.asyncGetValue, .asyncGetValue, .resume 0, .resume 1])
      (interleaving [.spurious 1] .halt [.spurious 0, .resume 0]
        ([.resume 1] ++ resumeAll 2))).cv = List.replicate 2 (.returned 0) :=
  shutdown_wake_all_return_zero
    (run ResourceSubject.init [.asyncGetValue, .asyncGetValue, .resume 0, .resume 1])
    2 [.spurious 1] [.spurious 0, .resume 0] [.resume 1]
    (by decide) (by decide) (by decide) (by decide) (by decide) (by decide)

end ResourceModel
